import Mathlib

/-!
Verification of the rowx record-mapper and migration runner (package rx).

This file shallowly embeds the parts of the Go source that the checked
claims are about:

* name conversion (rx/utils.go: CamelToSnake, SnakeToCamel,
  isCommonInitialism, lowerLetter),
* the fasttemplate-based SQL template renderer
  (RenderSQLTemplate, QueryTemplates, SQLForSET),
* the insert column-list computation (rx/rx.go: renderInsertQuery),
* the transactional Update loop (rx/rx.go: Update),
* the Delete rendering path (rx/rx.go: Delete, ifWhere),
* the migration runner (rx/utils.go: Migrate, parseMigrationFile,
  parseMigrationHeader, safeOpen),
* the NewRx registry (rx/rx.go: NewRx, SetData).

Strings are modelled as Lean String (lists of characters); Go's
unicode.IsUpper / unicode.ToLower etc. are modelled by Lean's ASCII
Char.isUpper / Char.toLower: all identifiers, SQL text and tags handled
by the claims are ASCII, where the two agree.  Database execution is
abstracted: executing a block of SQL statements is recorded in a log,
and the migrations ledger table is a list of rows.
-/

namespace Rowx

/-! ### Name conversion (rx/utils.go) -/

/-- Model of the body of the Go loop in CamelToSnake.  The source
function lowerLetter takes the builder, the rune and the two state
flags and returns the new flags; here the builder is the returned list
and the state flags are threaded through the recursion. -/
def lowerLetters : List Char → Bool → Bool → List Char
  | [], _, _ => []
  | r :: rest, begins, wasUpper =>
    if r.isUpper && !begins then '_' :: r.toLower :: lowerLetters rest true true
    else if begins && wasUpper then r.toLower :: lowerLetters rest false false
    else r :: lowerLetters rest begins wasUpper

/-- CamelToSnake from rx/utils.go: a 2-rune input is lowercased as a
whole, otherwise the rune scan with the begins/wasUpper flags (initial
values true, true) inserts an underscore before an uppercase rune that
does not begin a word. -/
def CamelToSnake (text : String) : String :=
  if text.toList.length = 2 then String.mk (text.toList.map Char.toLower)
  else String.mk (lowerLetters text.toList true true)

/-- Model of Go strings.Split(s, underscore-string): splits into the
list of chunks between underscores; the empty input yields one empty
chunk, exactly as strings.Split does. -/
def splitUnderscore : List Char → List (List Char)
  | [] => [[]]
  | c :: cs =>
    if c = '_' then [] :: splitUnderscore cs
    else
      match splitUnderscore cs with
      | [] => [[c]]
      | w :: ws => (c :: w) :: ws

/-- isCommonInitialism from rx/utils.go: recognized initialism words are
fully uppercased; oauth becomes OAuth; anything else is returned
unchanged with false. -/
def isCommonInitialism (word : String) : String × Bool :=
  match word with
  | "acl" | "api" | "ascii" | "cpu" | "css" | "dns" | "eof" | "eta" | "gpu"
  | "guid" | "html" | "http" | "https" | "id" | "ip" | "json" | "lhs" | "os" | "qps"
  | "ram" | "rhs" | "rpc" | "sla" | "smtp" | "sql" | "ssh" | "tcp" | "tls" | "ttl"
  | "udp" | "ui" | "uid" | "uuid" | "uri" | "url" | "utf8" | "vm" | "xml" | "xmpp"
  | "xsrf" | "xss" | "pid" => (String.mk (word.toList.map Char.toUpper), true)
  | "oauth" => ("OAuth", true)
  | "OAuth" => ("OAuth", true)
  | _ => (word, false)

/-- Per-word transformation inside SnakeToCamel: initialisms are
replaced by their uppercase form, any other word is capitalized
(first rune uppercased, the rest lowercased).  The Go code indexes
runes[0] and would panic on an empty word; that case cannot arise for
outputs of CamelToSnake and is modelled as the empty string. -/
def snakeWordToCamel (word : String) : String :=
  let p := isCommonInitialism word
  if p.2 then p.1
  else
    match word.toList with
    | [] => ""
    | c :: rest => String.mk (c.toUpper :: rest.map Char.toLower)

/-- SnakeToCamel from rx/utils.go: a 2-rune input is uppercased as a
whole; otherwise the input is split on underscores, each word is
capitalized (or replaced by its initialism form) and the words are
joined without separator. -/
def SnakeToCamel (w : String) : String :=
  if w.toList.length = 2 then String.mk (w.toList.map Char.toUpper)
  else
    String.mk (((splitUnderscore w.toList).map
      (fun piece => (snakeWordToCamel (String.mk piece)).toList)).flatten)

/-! ### Template renderer (fasttemplate.ExecuteStringStd, RenderSQLTemplate) -/

/-- Open tag of the SQL templates: a dollar sign followed by an opening
brace. -/
def openTagL : List Char := ['$', '\x7b']

/-- Close tag of the SQL templates: a closing brace. -/
def closeTagL : List Char := ['\x7d']

/-- Model of bytes.Index-based scanning in fasttemplate: returns the
text before the first occurrence of pat and the text after it, or none
when pat does not occur. -/
def findSub (pat : List Char) : List Char → Option (List Char × List Char)
  | [] => if pat.isPrefixOf ([] : List Char) then some ([], []) else none
  | c :: cs =>
    if pat.isPrefixOf (c :: cs) then some ([], (c :: cs).drop pat.length)
    else (findSub pat cs).map (fun p => (c :: p.1, p.2))

theorem findSub_some (pat : List Char) :
    ∀ s a b : List Char, findSub pat s = some (a, b) → s = a ++ pat ++ b := by
  intro s
  induction s with
  | nil =>
    intro a b h
    simp only [findSub] at h
    split at h
    · rename_i hp
      rw [ List.isPrefixOf_iff_prefix] at hp
      have hpat : pat = [] := List.prefix_nil.mp hp
      simp_all
    · exact absurd h (by simp)
  | cons c cs ih =>
    intro a b h
    simp only [findSub] at h
    split at h
    · rename_i hp
      rw [ List.isPrefixOf_iff_prefix] at hp
      obtain ⟨t, ht⟩ := hp
      injection h with h1
      cases h1
      simp only [List.nil_append]
      rw [← ht, List.drop_left]
    · cases e : findSub pat cs with
      | none => rw [e] at h; simp at h
      | some p =>
        rw [e] at h
        simp only [Option.map_some'] at h
        cases h
        have hcs := ih p.1 p.2 e
        simp [hcs]

/-- Recursion core of the fasttemplate scan, with explicit fuel.  Each
substitution step strictly shrinks the remaining text, so any fuel of
at least the text's length makes the fuel irrelevant (proved below);
the zero-fuel branch is unreachable from executeStd. -/
def executeStdAux (m : List (String × String)) : Nat → List Char → List Char
  | 0, s => s
  | fuel + 1, s =>
    match findSub openTagL s with
    | none => s
    | some (pre, rest) =>
      match findSub closeTagL rest with
      | none => s
      | some (tag, rest2) =>
        pre ++ (match m.lookup (String.mk tag) with
                | some v => v.toList
                | none => openTagL ++ tag ++ closeTagL) ++ executeStdAux m fuel rest2

/-- Model of fasttemplate.ExecuteStringStd with the SQL open and close
tags: a single left-to-right scan; each well-formed tag is replaced by
the mapped value (inserted verbatim, never rescanned) or kept untouched
when the map has no such key.  A tag with no close delimiter makes the
Go function panic; that case is modelled as returning the input (it is
unreachable for the templates of this package). -/
def executeStd (s : List Char) (m : List (String × String)) : List Char :=
  executeStdAux m (s.length + 1) s

theorem executeStdAux_fuel (m : List (String × String)) :
    ∀ f₁ f₂ s, s.length ≤ f₁ → s.length ≤ f₂ →
      executeStdAux m f₁ s = executeStdAux m f₂ s := by
  intro f₁
  induction f₁ with
  | zero =>
    intro f₂ s h1 _
    have hs : s = [] := List.length_eq_zero.mp (Nat.le_zero.mp h1)
    subst hs
    cases f₂ <;> rfl
  | succ k ih =>
    intro f₂ s h1 h2
    cases f₂ with
    | zero =>
      have hs : s = [] := List.length_eq_zero.mp (Nat.le_zero.mp h2)
      subst hs
      rfl
    | succ j =>
      simp only [executeStdAux]
      cases e : findSub openTagL s with
      | none => simp
      | some pr =>
        obtain ⟨pre, rest⟩ := pr
        cases e2 : findSub closeTagL rest with
        | none => simp [e2]
        | some tr =>
          obtain ⟨tag, rest2⟩ := tr
          simp only [e2]
          have hs := findSub_some _ _ _ _ e
          have hr := findSub_some _ _ _ _ e2
          have hlen : rest2.length + 3 ≤ s.length := by
            rw [hs, hr]
            simp [openTagL, closeTagL]
            omega
          congr 1
          exact ih j rest2 (by omega) (by omega)

theorem openTag_not_prefix_cons (c : Char) (cs : List Char) (hc : c ≠ '$') :
    openTagL.isPrefixOf (c :: cs) = false := by
  simp [openTagL, List.isPrefixOf, beq_iff_eq, Ne.symm hc]

theorem closeTag_not_prefix_cons (c : Char) (cs : List Char) (hc : c ≠ '\x7d') :
    closeTagL.isPrefixOf (c :: cs) = false := by
  simp [closeTagL, List.isPrefixOf, beq_iff_eq, Ne.symm hc]

theorem findSub_none_of_not_mem (s : List Char) (hd : '$' ∉ s) :
    findSub openTagL s = none := by
  induction s with
  | nil => rfl
  | cons c cs ih =>
    have hc : c ≠ '$' := fun h => hd (h ▸ List.mem_cons_self c cs)
    have hcs : '$' ∉ cs := fun h => hd (List.mem_cons_of_mem c h)
    simp only [findSub, openTag_not_prefix_cons c cs hc]
    simp [ih hcs]

theorem findSub_open_boundary (pre s : List Char) (hpre : '$' ∉ pre) :
    findSub openTagL (pre ++ (openTagL ++ s)) = some (pre, s) := by
  induction pre with
  | nil =>
    simp only [List.nil_append, openTagL]
    simp [findSub, List.isPrefixOf]
  | cons c cs ih =>
    have hc : c ≠ '$' := fun h => hpre (h ▸ List.mem_cons_self c cs)
    have hcs : '$' ∉ cs := fun h => hpre (List.mem_cons_of_mem c h)
    simp only [List.cons_append, findSub]
    have hnp : ¬ openTagL <+: (c :: (cs ++ (openTagL ++ s))) := by
      intro hp
      obtain ⟨t, ht⟩ := hp
      have hh := congrArg List.head? ht
      simp [openTagL] at hh
      exact hc hh.symm
    simp [ List.isPrefixOf_iff_prefix, hnp, ih hcs]

theorem findSub_close_boundary (tag s : List Char) (htag : '\x7d' ∉ tag) :
    findSub closeTagL (tag ++ (closeTagL ++ s)) = some (tag, s) := by
  induction tag with
  | nil =>
    simp only [List.nil_append, closeTagL]
    simp [findSub, List.isPrefixOf]
  | cons c cs ih =>
    have hc : c ≠ '\x7d' := fun h => htag (h ▸ List.mem_cons_self c cs)
    have hcs : '\x7d' ∉ cs := fun h => htag (List.mem_cons_of_mem c h)
    simp only [List.cons_append, findSub]
    have hnp : ¬ closeTagL <+: (c :: (cs ++ (closeTagL ++ s))) := by
      intro hp
      obtain ⟨t, ht⟩ := hp
      have hh := congrArg List.head? ht
      simp [closeTagL] at hh
      exact hc hh.symm
    simp [ List.isPrefixOf_iff_prefix, hnp, ih hcs]

/-- Key behavioural fact about the single-pass scan: a well-formed tag
is replaced by the bound value inserted verbatim (or kept when unbound)
and scanning continues strictly after the close delimiter, so a
substituted value is never rescanned, whatever it contains. -/
theorem executeStd_step (pre tag post : List Char) (m : List (String × String))
    (hpre : '$' ∉ pre) (htag : '\x7d' ∉ tag) :
    executeStd (pre ++ (openTagL ++ (tag ++ (closeTagL ++ post)))) m
      = pre ++ (match m.lookup (String.mk tag) with
                | some v => v.toList
                | none => openTagL ++ tag ++ closeTagL) ++ executeStd post m := by
  have hopen := findSub_open_boundary pre (tag ++ (closeTagL ++ post)) hpre
  have hclose := findSub_close_boundary tag post htag
  rw [executeStd]
  simp only [executeStdAux, hopen, hclose]
  congr 1
  rw [executeStd]
  apply executeStdAux_fuel
  · simp [openTagL, closeTagL]
    omega
  · omega

theorem executeStd_of_no_dollar (s : List Char) (m : List (String × String))
    (hd : '$' ∉ s) : executeStd s m = s := by
  unfold executeStd
  cases hf : s.length + 1 with
  | zero => omega
  | succ k => simp [executeStdAux, findSub_none_of_not_mem s hd]

/-- QueryTemplates from the rx package: the static dictionary of named
SQL templates.  All values are strings. -/
def QueryTemplates : List (String × String) :=
  [ ("INSERT", "INSERT INTO ${table} (${columns}) VALUES ${placeholders}"),
    ("SELECT", "SELECT ${columns} FROM ${table} ${WHERE} LIMIT ${limit} OFFSET ${offset}"),
    ("GET", "SELECT ${columns} FROM ${table} ${WHERE} LIMIT 1"),
    ("UPDATE", "UPDATE ${table} ${SET} ${WHERE}"),
    ("DELETE", "DELETE FROM ${table} ${WHERE}"),
    ("CREATE_MIGRATIONS_TABLE",
      "\nCREATE TABLE IF NOT EXISTS ${table} (\n\tversion UNSIGNED INT NOT NULL,\n\tdirection VARCHAR(4) NOT NULL CHECK(direction IN('up', 'down')),\n\tfile_path TEXT NOT NULL,\n\tapplied TIMESTAMP DEFAULT CURRENT_TIMESTAMP,\n\tUNIQUE(version, direction)\n)"),
    ("SELECT_TABLE_INFO_sqlite3",
      "\nSELECT t.name AS table_name, c.cid as c_id, c.name AS c_name,\nc.type as c_type, c.\"notnull\" as not_null, c.dflt_value as default_value, c.pk as pk\n-- TODO: Parse CHECK constraints(and later maybe foreign keys) from t.sql\n-- , t.sql\nFROM sqlite_master t, pragma_table_info(t.name) c\nWHERE t.type='table' AND t.name NOT LIKE 'sqlite%' ORDER BY table_name, c_id;\n") ]

/-- RenderSQLTemplate from the rx package: look the template up by key,
render it once against QueryTemplates itself (template-to-template
substitution), then once against the per-call stash.  The Go code
panics when the key is missing (nil type assertion); that case is
modelled as the empty string. -/
def RenderSQLTemplate (key : String) (stash : List (String × String)) : String :=
  match QueryTemplates.lookup key with
  | none => ""
  | some t => String.mk (executeStd (executeStd t.toList QueryTemplates) stash)

/-! ### SET fragment, WHERE handling, Delete and Insert rendering (rx.go) -/

/-- Per-column conversion inside SQLForSET.  The Go loop over the runes
of v breaks unconditionally after the first iteration, so only the
first rune decides whether CamelToSnake is applied. -/
def sqlForSetColumn (v : String) : String :=
  match v.toList with
  | [] => v
  | r :: _ => if r.isUpper then CamelToSnake v else v

/-- Model of Go strings.TrimSuffix(s, comma-string): removes one final
comma when present. -/
def trimSuffixComma (s : String) : String :=
  if s.toList.getLast? = some ',' then String.mk s.toList.dropLast else s

/-- SQLForSET from the rx package: writes SET, appends one
space-name-equals-placeholder-comma piece per column, and trims the
final comma. -/
def SQLForSET (columns : List String) : String :=
  trimSuffixComma (String.mk ("SET".toList ++
    (columns.map
      (fun v => (" " ++ sqlForSetColumn v ++ " = :" ++ sqlForSetColumn v ++ ",").toList)).flatten))

/-- Whitespace class of the Go regexp escape used by isWhere
(space, tab, newline, form feed, carriage return). -/
def isSpaceRe (c : Char) : Bool :=
  c = ' ' || c = '\t' || c = '\n' || c = '\x0c' || c = '\r'

/-- Model of the isWhere regular expression of rx.go: case-insensitive
match of optional leading whitespace, the word WHERE and one following
whitespace character, anchored at the start of the string. -/
def isWhereMatch (s : String) : Bool :=
  match (s.toList.dropWhile isSpaceRe).map Char.toLower with
  | 'w' :: 'h' :: 'e' :: 'r' :: 'e' :: c :: _ => isSpaceRe c
  | _ => false

/-- ifWhere from rx.go: a non-empty fragment that does not already
start with the WHERE keyword is prefixed with it; everything else
(including the empty fragment) is returned unchanged. -/
def ifWhere (w : String) : String :=
  if w ≠ "" ∧ isWhereMatch w = false then "WHERE " ++ w else w

/-- Delete's handling of a nil bindData: it is replaced by an empty
map before NamedExec. -/
def deleteBindData (b : Option (List (String × String))) : List (String × String) :=
  b.getD []

/-- Rendering path of Delete from rx.go: the stash holds the table
name and the ifWhere-adjusted fragment, and the DELETE template is
rendered with RenderSQLTemplate. -/
def renderDeleteQuery (table whereStr : String) : String :=
  RenderSQLTemplate "DELETE" [("table", table), ("WHERE", ifWhere whereStr)]

/-- Field metadata as seen through the sqlx mapper: the column name
(from the rx tag or CamelToSnake of the field name) and the tag
options. -/
structure FieldMeta where
  name : String
  options : List String
deriving DecidableEq

/-- Lookup in the Names map of the reflectx StructMap. -/
def optionsOf (names : List FieldMeta) (col : String) : List String :=
  ((names.find? (fun f => f.name == col)).getD ⟨col, []⟩).options

/-- Column filter of renderInsertQuery from rx.go, exactly as written
in the source: a column named id carrying the no_auto option is
skipped, then any column carrying the auto option is skipped, and
every other column is kept. -/
def noAutoColumns (names : List FieldMeta) : List String → List String
  | [] => []
  | col :: rest =>
    if col == "id" && (optionsOf names col).contains "no_auto" then noAutoColumns names rest
    else if (optionsOf names col).contains "auto" then noAutoColumns names rest
    else col :: noAutoColumns names rest

/-- renderInsertQuery from rx.go: joins the filtered columns and their
named placeholders into the INSERT template. -/
def renderInsertQuery (table : String) (names : List FieldMeta) (columns : List String) : String :=
  let cols := noAutoColumns names columns
  RenderSQLTemplate "INSERT"
    [("columns", String.intercalate "," cols),
     ("table", table),
     ("placeholders", "(:" ++ String.intercalate ",:" cols ++ ")")]

/-! ### Update transaction loop (rx.go)

The store is abstracted: a database state of type D and a function
exec that executes the prepared UPDATE statement for one record,
returning the new state or none on a statement error (for example a
uniqueness-constraint violation). -/

/-- Loop body of Update from rx.go: one Exec per record; the first
error returns immediately, so the deferred Rollback discards the
transaction and the pre-transaction state db0 is what persists.  After
the loop Commit makes the accumulated state durable. -/
def updateLoop {R D : Type} (exec : R → D → Option D) (db0 : D) : List R → D → D × Bool
  | [], cur => (cur, true)
  | r :: rs, cur =>
    match exec r cur with
    | some cur2 => updateLoop exec db0 rs cur2
    | none => (db0, false)

/-- Update from rx.go, at the transaction level: begin, run the loop
once per record, commit on success; any per-record failure leaves the
database in its pre-update state. -/
def updateTx {R D : Type} (exec : R → D → Option D) (rows : List R) (db : D) : D × Bool :=
  updateLoop exec db rows db

/-- Sequential once-per-record application of the update statement,
used to state what a successful Update performs. -/
def applyAll {R D : Type} (exec : R → D → Option D) : List R → D → Option D
  | [], cur => some cur
  | r :: rs, cur => (exec r cur).bind (applyAll exec rs)

/-! ### Migration runner (rx/utils.go) -/

/-- Go's unicode.IsSpace on the ASCII range, used by strings.TrimSpace. -/
def isSpaceGo (c : Char) : Bool :=
  c = ' ' || c = '\t' || c = '\n' || c = '\x0b' || c = '\x0c' || c = '\r'

/-- Model of strings.TrimSpace: strips leading and trailing whitespace. -/
def trimSpace (s : String) : String :=
  String.mk (((s.toList.dropWhile isSpaceGo).reverse.dropWhile isSpaceGo).reverse)

/-- parseMigrationHeader from rx/utils.go: matches a line against the
anchored pattern two dashes, optional spaces, one to twelve digits,
optional spaces, the word up or down, end of line; returns the version
and direction capture groups, or two empty strings when the line is
not a header. -/
def parseMigrationHeader (line : String) : String × String :=
  match line.toList with
  | '-' :: '-' :: rest =>
    let afterSpace := rest.dropWhile isSpaceRe
    let digits := afterSpace.takeWhile Char.isDigit
    let tail := (afterSpace.dropWhile Char.isDigit).dropWhile isSpaceRe
    if 1 ≤ digits.length ∧ digits.length ≤ 12 ∧
        (tail = ['u', 'p'] ∨ tail = ['d', 'o', 'w', 'n']) then
      (String.mk digits, String.mk tail)
    else ("", "")
  | _ => ("", "")

/-- One migration unit parsed from the file: version, direction and
the accumulated statement lines (the Statements strings.Builder). -/
structure Migration where
  Version : String
  Direction : String
  Statements : String
deriving DecidableEq

/-- One row of the rx_migrations ledger table, as inserted by Migrate
(the applied timestamp column carries the auto option and is filled by
the database, so it is not part of the inserted record). -/
structure LedgerRow where
  Version : String
  Direction : String
  FilePath : String
deriving DecidableEq

/-- Ledger lookup performed during parsing: the Get with the fragment
version equals ver and direction equals dir against the migrations
table, true when a matching row exists. -/
def appliedIn (ledger : List LedgerRow) (v d : String) : Bool :=
  ledger.any (fun r => r.Version == v && r.Direction == d)

/-- WriteString on the Statements builder of the last collected unit. -/
def appendToLast (migs : List Migration) (s : String) : List Migration :=
  match migs with
  | [] => []
  | [m] => [{ m with Statements := m.Statements ++ s }]
  | m :: rest => m :: appendToLast rest s

/-- Scanner loop of parseMigrationFile from rx/utils.go.  Each line is
trimmed; a header line whose version-direction pair already has a
ledger row only sets versionIsApplied (collecting stops), any other
header starts a new unit; non-header lines are skipped until the first
unapplied header and while versionIsApplied holds, and are otherwise
appended (with a newline) to the last unit's statements.  The model
assumes the ledger Get returns either a row or no-rows (a database
failure, in which neither branch of the Go code runs, is outside the
model). -/
def parseLines (ledger : List LedgerRow) :
    List String → List Migration → Bool → String → List Migration
  | [], migs, _, _ => migs
  | line :: rest, migs, versionIsApplied, currentVersion =>
    let l := trimSpace line
    let p := parseMigrationHeader l
    if p.1 ≠ "" ∧ p.2 ≠ "" then
      if appliedIn ledger p.1 p.2 then parseLines ledger rest migs true currentVersion
      else parseLines ledger rest (migs ++ [⟨p.1, p.2, ""⟩]) false p.1
    else if currentVersion = "" ∨ versionIsApplied then
      parseLines ledger rest migs versionIsApplied currentVersion
    else parseLines ledger rest (appendToLast migs (l ++ "\n")) versionIsApplied currentVersion

/-- parseMigrationFile from rx/utils.go, over the file's lines (the
bufio scanner yields lines; opening the file is modelled separately by
the safeOpen path check). -/
def parseMigrationFile (ledger : List LedgerRow) (lines : List String) : List Migration :=
  parseLines ledger lines [] false ""

/-- Database state visible to the migration runner: the ledger table
plus the log of statement blocks handed to multiExec (each block runs
in one transaction; the model covers the success path, as an exec
error aborts Migrate without inserting a ledger row). -/
structure MigState where
  ledger : List LedgerRow
  executed : List String
deriving DecidableEq

/-- Execution loop of Migrate: units whose direction differs from the
requested one are only logged as unapplicable; each matching unit's
statements are executed via multiExec and one ledger row is inserted. -/
def execUnits (direction filePath : String) : List Migration → MigState → MigState
  | [], st => st
  | m :: ms, st =>
    if m.Direction ≠ direction then execUnits direction filePath ms st
    else execUnits direction filePath ms
      { ledger := st.ledger ++ [⟨m.Version, m.Direction, filePath⟩],
        executed := st.executed ++ [m.Statements] }

deriving instance DecidableEq for Except

/-- Migrate from rx/utils.go: reject unknown directions, parse the
file against the current ledger, reverse the unit list for direction
down, then execute.  The creation of the ledger table itself (CREATE
TABLE IF NOT EXISTS) is implicit in the MigState representation. -/
def Migrate (filePath : String) (lines : List String) (direction : String)
    (st : MigState) : Except String MigState :=
  if direction ≠ "up" ∧ direction ≠ "down" then
    Except.error "direction can be only up or down"
  else
    Except.ok (execUnits direction filePath
      (if direction == "down" then (parseMigrationFile st.ledger lines).reverse
       else parseMigrationFile st.ledger lines) st)

/-! ### safeOpen path check (rx/utils.go) -/

/-- Model of Go strings.HasPrefix. -/
def hasPrefixStr (s p : String) : Bool :=
  p.toList.isPrefixOf s.toList

/-- Split a path on slashes. -/
def splitSlash : List Char → List (List Char)
  | [] => [[]]
  | c :: cs =>
    if c = '/' then [] :: splitSlash cs
    else
      match splitSlash cs with
      | [] => [[c]]
      | w :: ws => (c :: w) :: ws

/-- Lexical processing of path components as filepath.Clean does for
rooted paths: empty components and dot components disappear, a dotdot
component removes the preceding component (or nothing at the root). -/
def cleanStack (acc : List (List Char)) : List (List Char) → List (List Char)
  | [] => acc
  | c :: rest =>
    if c = [] ∨ c = ['.'] then cleanStack acc rest
    else if c = ['.', '.'] then cleanStack acc.dropLast rest
    else cleanStack (acc ++ [c]) rest

/-- Model of filepath.Clean for an absolute Unix path. -/
def cleanAbs (p : String) : String :=
  "/" ++ String.intercalate "/" ((cleanStack [] (splitSlash p.toList)).map String.mk)

/-- Model of the resolution performed by safeOpen: filepath.Abs of
filepath.Clean of the caller path, with the current working directory
(an absolute path) prepended when the path is relative. -/
def resolveAbs (cwd p : String) : String :=
  match p.toList with
  | '/' :: _ => cleanAbs p
  | _ => cleanAbs (cwd ++ "/" ++ p)

/-- The check safeOpen performs before opening: the resolved absolute
path must have the current working directory string as a prefix,
otherwise the Go code panics. -/
def safeOpenCheck (cwd p : String) : Bool :=
  hasPrefixStr (resolveAbs cwd p) cwd

/-- Spec-side notion of lying inside the working directory tree: the
resolved path is the directory itself or extends it past a path
separator. -/
def underDir (cwd q : String) : Bool :=
  q == cwd || hasPrefixStr q (cwd ++ "/")

/-! ### NewRx registry (rx.go) -/

/-- In-memory state of one cached mapper instance: the record slice
(the table and columns caches are irrelevant to the sharing claim). -/
structure RxObj (R : Type) where
  data : List R
deriving DecidableEq

/-- Process-wide state of the rxRegistry: a heap of instances
addressed by index and the registry mapping a type name to the index
of its cached instance. -/
structure RxState (R : Type) where
  instances : List (RxObj R)
  registry : List (String × Nat)
deriving DecidableEq

/-- NewRx from rx.go for one record type: when the registry already
holds an instance for the type name, that same instance's data is
reset to the new rows (SetData) and the instance is returned;
otherwise a fresh instance is allocated and registered. -/
def newRx {R : Type} (typestr : String) (rows : List R) (st : RxState R) : RxState R × Nat :=
  match st.registry.lookup typestr with
  | some i => ({ st with instances := st.instances.set i ⟨rows⟩ }, i)
  | none =>
    ({ instances := st.instances ++ [⟨rows⟩],
       registry := st.registry ++ [(typestr, st.instances.length)] }, st.instances.length)

/-- Data observable through a mapper handle: the record slice of the
instance the handle points at. -/
def dataOf {R : Type} (st : RxState R) (i : Nat) : List R :=
  ((st.instances.getD i ⟨[]⟩)).data

/-! ### Theorems for the claims -/

/-- C2 theorem (code bug evidence).  Evaluating the insert column
filter of renderInsertQuery at concrete field metadata: a primary-key
field tagged no_auto is excluded from the INSERT column list, while an
untagged id field is included — the opposite of the claim and of the
function's own documentation; only the auto tag excludes id. -/
theorem insert_id_tag_divergence :
    noAutoColumns [⟨"id", ["no_auto"]⟩, ⟨"login_name", []⟩] ["id", "login_name"] = ["login_name"]
    ∧ noAutoColumns [⟨"id", []⟩, ⟨"login_name", []⟩] ["id", "login_name"] = ["id", "login_name"]
    ∧ renderInsertQuery "users" [⟨"id", ["no_auto"]⟩, ⟨"login_name", []⟩] ["id", "login_name"]
        = "INSERT INTO users (login_name) VALUES (:login_name)"
    ∧ renderInsertQuery "users" [⟨"id", ["auto"]⟩, ⟨"login_name", []⟩] ["id", "login_name"]
        = "INSERT INTO users (login_name) VALUES (:login_name)" := by
  refine ⟨by decide, by decide, by decide, by decide⟩

/-- C3: Update executes the prepared statement once per record inside
one transaction and is all-or-nothing: when any record's execution
fails the pre-update state persists unchanged, and on success the
final state is the sequential once-per-record application of the
statement to every record. -/
theorem update_all_or_nothing {R D : Type} (exec : R → D → Option D)
    (rows : List R) (db : D) :
    (applyAll exec rows db = none → updateTx exec rows db = (db, false))
    ∧ (∀ db2, applyAll exec rows db = some db2 → updateTx exec rows db = (db2, true)) := by
  have key : ∀ (rs : List R) (cur : D),
      (applyAll exec rs cur = none → updateLoop exec db rs cur = (db, false))
      ∧ (∀ db2, applyAll exec rs cur = some db2 → updateLoop exec db rs cur = (db2, true)) := by
    intro rs
    induction rs with
    | nil =>
      intro cur
      constructor
      · intro h
        simp [applyAll] at h
      · intro db2 h
        simp [applyAll] at h
        simp [updateLoop, h]
    | cons r rs ih =>
      intro cur
      constructor
      · intro h
        simp only [applyAll] at h
        cases he : exec r cur with
        | none => simp [updateLoop, he]
        | some cur2 =>
          rw [he] at h
          simp only [Option.some_bind] at h
          simp [updateLoop, he, (ih cur2).1 h]
      · intro db2 h
        simp only [applyAll] at h
        cases he : exec r cur with
        | none => rw [he] at h; simp at h
        | some cur2 =>
          rw [he] at h
          simp only [Option.some_bind] at h
          simp [updateLoop, he, (ih cur2).2 db2 h]
  exact key rows db

/-- Concrete statement-failure model used by witnesses: executing a
record numbered zero violates a constraint, any other record appends
its number to the table. -/
def execDemo : Nat → List Nat → Option (List Nat) :=
  fun r db => if r = 0 then none else some (db ++ [r])

/-- Witness for C3 at concrete inputs: the second record fails, the
call reports failure and the table keeps its pre-update contents; with
two succeeding records both are applied in order. -/
theorem update_all_or_nothing_witness :
    updateTx execDemo [1, 0] [5] = ([5], false)
    ∧ updateTx execDemo [1, 2] [5] = ([5, 1, 2], true) :=
  ⟨(update_all_or_nothing execDemo [1, 0] [5]).1 (by decide),
   (update_all_or_nothing execDemo [1, 2] [5]).2 [5, 1, 2] (by decide)⟩

/-- C5: the renderer resolves templates in two fixed phases.  The
general conjunct shows the single-pass scan substitutes a bound value
verbatim and continues strictly after the close tag, so a substituted
value is never rescanned and rendering terminates; the concrete
conjuncts show a caller value that names or references a template key
survives both phases verbatim instead of being re-resolved. -/
theorem render_two_phase :
    (∀ (pre tag post : List Char) (m : List (String × String)) (v : String),
        '$' ∉ pre → '\x7d' ∉ tag → m.lookup (String.mk tag) = some v →
        executeStd (pre ++ (openTagL ++ (tag ++ (closeTagL ++ post)))) m
          = pre ++ v.toList ++ executeStd post m)
    ∧ RenderSQLTemplate "DELETE" [("table", "${SELECT}"), ("WHERE", "")]
        = "DELETE FROM ${SELECT} "
    ∧ executeStd ("${x}").toList [("x", "${x}")] = ("${x}").toList := by
  refine ⟨?_, by decide, by decide⟩
  intro pre tag post m v hpre htag hv
  rw [executeStd_step pre tag post m hpre htag]
  simp [hv]

/-- Witness for C5: the general substitution conjunct applied at a
concrete template, tag and stash. -/
theorem render_two_phase_witness :
    executeStd ("SELECT ".toList ++ (openTagL ++ ("x".toList ++ (closeTagL ++ "!".toList))))
        [("x", "DELETE")]
      = "SELECT ".toList ++ "DELETE".toList ++ executeStd "!".toList [("x", "DELETE")] :=
  render_two_phase.1 "SELECT ".toList "x".toList "!".toList [("x", "DELETE")] "DELETE"
    (by decide) (by decide) (by decide)

/-- C8 counterexample: a path in the sibling directory slash-a-slash-bc
resolves outside the working tree of slash-a-slash-b, yet the
string-prefix check of safeOpen accepts it, so the claim that every
path resolving outside the working directory tree is rejected is
false. -/
theorem safeopen_counterexample :
    safeOpenCheck "/a/b" "/a/bc/evil.sql" = true
    ∧ underDir "/a/b" (resolveAbs "/a/b" "/a/bc/evil.sql") = false := by decide

/-- C8 amended: safeOpen accepts every path that resolves inside the
working directory tree, and any rejected (panicking) path really
resolves outside that tree; acceptance is however decided by a plain
string-prefix test, which also admits some outside-tree paths (see the
counterexample). -/
theorem safeopen_prefix_amended (cwd p : String) :
    (underDir cwd (resolveAbs cwd p) = true → safeOpenCheck cwd p = true)
    ∧ (safeOpenCheck cwd p = false → underDir cwd (resolveAbs cwd p) = false) := by
  have part1 : underDir cwd (resolveAbs cwd p) = true → safeOpenCheck cwd p = true := by
    intro h
    unfold underDir at h
    unfold safeOpenCheck hasPrefixStr
    rcases Bool.or_eq_true _ _ |>.mp h with hq | hq
    · have : resolveAbs cwd p = cwd := by
        exact eq_of_beq hq
      rw [this, List.isPrefixOf_iff_prefix]
    · unfold hasPrefixStr at hq
      rw [ List.isPrefixOf_iff_prefix] at hq ⊢
      have hcwd : cwd.toList <+: (cwd ++ "/").toList := by
        refine ⟨"/".toList, ?_⟩
        simp [String.toList]
      exact hcwd.trans hq
  refine ⟨part1, ?_⟩
  intro h
  cases hu : underDir cwd (resolveAbs cwd p) with
  | false => rfl
  | true => rw [part1 hu] at h; exact absurd h (by simp)

/-- Witness for C8: a relative path resolving inside the working
directory is accepted. -/
theorem safeopen_prefix_amended_witness :
    safeOpenCheck "/a/b" "m.sql" = true :=
  (safeopen_prefix_amended "/a/b" "m.sql").1 (by decide)

/-- C9 counterexample: the registry hands the second caller the same
cached instance after resetting its data, so the record data m1
observes changes from the first caller's rows to the second caller's
rows — per-instance state does leak across callers. -/
theorem newrx_registry_counterexample :
    (dataOf (newRx "users" [1] (⟨[], []⟩ : RxState Nat)).1
        (newRx "users" [1] (⟨[], []⟩ : RxState Nat)).2 = [1])
    ∧ dataOf (newRx "users" [2] (newRx "users" [1] (⟨[], []⟩ : RxState Nat)).1).1
        (newRx "users" [1] (⟨[], []⟩ : RxState Nat)).2 = [2] := by decide

/-- C9 amended: for any record type and any two row slices, a second
NewRx call for the same type name returns the very instance handed to
the first caller with its data reset to the new rows, so the data
observable through the first handle becomes the second caller's
rows. -/
theorem newrx_registry_reuse {R : Type} (typestr : String) (rows1 rows2 : List R) :
    (newRx typestr rows2 (newRx typestr rows1 (⟨[], []⟩ : RxState R)).1).2
      = (newRx typestr rows1 (⟨[], []⟩ : RxState R)).2
    ∧ dataOf (newRx typestr rows2 (newRx typestr rows1 (⟨[], []⟩ : RxState R)).1).1
        (newRx typestr rows1 (⟨[], []⟩ : RxState R)).2 = rows2 := by
  simp [newRx, dataOf, List.lookup]

/-- C10: Delete with an empty where fragment and nil bindData reaches
NamedExec with the nil bindData replaced by an empty map, the empty
fragment left unprefixed by the WHERE keyword, and the rendered
statement DELETE FROM table (followed by the space where the empty
WHERE placeholder stood) containing no WHERE clause. -/
theorem delete_empty_where (t : String) :
    ifWhere "" = "" ∧ deleteBindData none = []
    ∧ renderDeleteQuery t "" = "DELETE FROM " ++ t ++ " " := by
  have hw : ifWhere "" = "" := by decide
  refine ⟨hw, rfl, ?_⟩
  show RenderSQLTemplate "DELETE" [("table", t), ("WHERE", ifWhere "")] = _
  rw [hw, RenderSQLTemplate]
  have hl : QueryTemplates.lookup "DELETE" = some "DELETE FROM ${table} ${WHERE}" := by decide
  rw [hl]
  have h1 : executeStd ("DELETE FROM ${table} ${WHERE}").toList QueryTemplates
      = ("DELETE FROM ${table} ${WHERE}").toList := by decide
  simp only [h1]
  have hdec : ("DELETE FROM ${table} ${WHERE}").toList
      = "DELETE FROM ".toList ++ (openTagL ++ ("table".toList ++ (closeTagL ++ (" ${WHERE}").toList))) := by
    decide
  rw [hdec, executeStd_step _ _ _ _ (by decide) (by decide)]
  have hlk : List.lookup (String.mk "table".toList) [("table", t), ("WHERE", "")] = some t := rfl
  rw [hlk]
  have hdec2 : (" ${WHERE}").toList
      = " ".toList ++ (openTagL ++ ("WHERE".toList ++ (closeTagL ++ ([] : List Char)))) := by
    decide
  rw [hdec2, executeStd_step _ _ _ _ (by decide) (by decide)]
  have hlk2 : List.lookup (String.mk "WHERE".toList) [("table", t), ("WHERE", "")]
      = some "" := rfl
  rw [hlk2]
  have hnil : executeStd ([] : List Char) [("table", t), ("WHERE", "")] = [] := rfl
  rw [hnil]
  apply String.ext
  simp [String.toList]

/-- One SET piece for a column, with the conversion Update actually
performs (snake case only when the first rune is uppercase). -/
def setPiece (v : String) : String :=
  " " ++ sqlForSetColumn v ++ " = :" ++ sqlForSetColumn v

/-- Comma-join of the SET pieces, the shape of the fragment the
amended claim describes. -/
def joinCommaStr : List String → String
  | [] => ""
  | [p] => p
  | p :: rest => p ++ "," ++ joinCommaStr rest

theorem trim_append_pieces (ps : List String) :
    ∀ (p : String) (base : List Char),
      trimSuffixComma (String.mk (base ++ ((p :: ps).map (fun q => (q ++ ",").toList)).flatten))
        = String.mk (base ++ (joinCommaStr (p :: ps)).toList) := by
  induction ps with
  | nil =>
    intro p base
    have hflat : ((([p]).map (fun q => (q ++ ",").toList)).flatten)
        = (p.toList ++ [',']) := by
      simp [String.toList]
    rw [hflat]
    unfold trimSuffixComma
    have htl : (String.mk (base ++ (p.toList ++ [',']))).toList
        = (base ++ p.toList) ++ [','] := by
      simp [String.toList]
    rw [htl, List.getLast?_concat, List.dropLast_concat]
    simp [joinCommaStr]
  | cons q qs ih =>
    intro p base
    have hflat : base ++ (((p :: q :: qs).map (fun r => (r ++ ",").toList)).flatten)
        = (base ++ (p.toList ++ [','])) ++ (((q :: qs).map (fun r => (r ++ ",").toList)).flatten) := by
      simp [String.toList]
    rw [hflat, ih q (base ++ (p.toList ++ [',']))]
    have hjoin : (joinCommaStr (p :: q :: qs)).toList
        = p.toList ++ [','] ++ (joinCommaStr (q :: qs)).toList := by
      show (p ++ "," ++ joinCommaStr (q :: qs)).toList = _
      simp [String.toList]
    rw [hjoin]
    simp [List.append_assoc]

/-- C7 amended: the SET fragment built by SQLForSET is the word SET
followed by the comma-joined pieces, each using the snake-case form of
a column exactly when the column's first rune is uppercase and the
unchanged name otherwise. -/
theorem sqlforset_first_upper (columns : List String) :
    SQLForSET columns = "SET" ++ joinCommaStr (columns.map setPiece) := by
  cases columns with
  | nil => decide
  | cons c cs =>
    show trimSuffixComma (String.mk ("SET".toList ++
        ((c :: cs).map
          (fun v => (" " ++ sqlForSetColumn v ++ " = :" ++ sqlForSetColumn v ++ ",").toList)).flatten))
      = _
    have hmap : (c :: cs).map
          (fun v => (" " ++ sqlForSetColumn v ++ " = :" ++ sqlForSetColumn v ++ ",").toList)
        = ((c :: cs).map setPiece).map (fun q => (q ++ ",").toList) := by
      rw [List.map_map]
      rfl
    rw [hmap]
    have hcons : ((c :: cs).map setPiece) = setPiece c :: cs.map setPiece := rfl
    rw [hcons, trim_append_pieces (cs.map setPiece) (setPiece c) "SET".toList]
    apply String.ext
    simp [String.toList]

/-- C7 counterexample: the column loginName contains an uppercase rune
(its sixth rune), its snake-case form is login_name, yet SQLForSET
keeps the name unchanged because the first rune is lowercase — the
claim that every name containing an uppercase rune anywhere is
converted is false. -/
theorem sqlforset_counterexample :
    SQLForSET ["loginName"] = "SET loginName = :loginName"
    ∧ SQLForSET ["loginName"] ≠ "SET login_name = :login_name"
    ∧ CamelToSnake "loginName" = "login_name" := by decide

/-- Version-direction pair of a parsed migration unit. -/
def pairOf (m : Migration) : String × String := (m.Version, m.Direction)

/-- Version-direction pair of a ledger row. -/
def pairOfRow (r : LedgerRow) : String × String := (r.Version, r.Direction)

/-- Header content of one line, when the trimmed line matches the
migration header pattern. -/
def headerOf (line : String) : Option (String × String) :=
  let p := parseMigrationHeader (trimSpace line)
  if p.1 ≠ "" ∧ p.2 ≠ "" then some p else none

/-- All header pairs of a migration file, in file order. -/
def fileHeaders (lines : List String) : List (String × String) :=
  lines.filterMap headerOf

theorem appendToLast_pairs (s : String) :
    ∀ migs : List Migration, (appendToLast migs s).map pairOf = migs.map pairOf := by
  intro migs
  induction migs with
  | nil => rfl
  | cons m rest ih =>
    cases rest with
    | nil => simp [appendToLast, pairOf]
    | cons m2 rest2 => simp [appendToLast, pairOf] at ih ⊢; exact ih

theorem parseLines_pairs (ledger : List LedgerRow) :
    ∀ (lines : List String) (migs : List Migration) (applied : Bool) (cur : String),
      (parseLines ledger lines migs applied cur).map pairOf
        = migs.map pairOf
          ++ (fileHeaders lines).filter (fun p => !(appliedIn ledger p.1 p.2)) := by
  intro lines
  induction lines with
  | nil => intro migs applied cur; simp [parseLines, fileHeaders]
  | cons line rest ih =>
    intro migs applied cur
    simp only [parseLines]
    by_cases hh : (parseMigrationHeader (trimSpace line)).1 ≠ ""
        ∧ (parseMigrationHeader (trimSpace line)).2 ≠ ""
    case pos =>
      have hhd : fileHeaders (line :: rest)
          = parseMigrationHeader (trimSpace line) :: fileHeaders rest := by
        simp [fileHeaders, headerOf, hh]
      rw [if_pos hh, hhd]
      cases ha : appliedIn ledger (parseMigrationHeader (trimSpace line)).1
          (parseMigrationHeader (trimSpace line)).2 with
      | true => simp [ih migs true cur, ha]
      | false =>
        simp [ih (migs ++ [⟨(parseMigrationHeader (trimSpace line)).1,
              (parseMigrationHeader (trimSpace line)).2, ""⟩]) false
              (parseMigrationHeader (trimSpace line)).1, ha, pairOf]
    case neg =>
      have hnone : headerOf line = none := by
        simp [headerOf, hh]
      have hhd : fileHeaders (line :: rest) = fileHeaders rest := by
        simp [fileHeaders, List.filterMap_cons, hnone]
      rw [if_neg hh, hhd]
      by_cases hc : cur = "" ∨ applied = true
      case pos =>
        rw [if_pos hc]
        exact ih migs applied cur
      case neg =>
        rw [if_neg hc, ih (appendToLast migs (trimSpace line ++ "\n")) applied cur,
          appendToLast_pairs]

theorem execUnits_spec (direction filePath : String) :
    ∀ (ms : List Migration) (st : MigState),
      execUnits direction filePath ms st
        = ⟨st.ledger ++ (ms.filter (fun m => m.Direction == direction)).map
              (fun m => ⟨m.Version, m.Direction, filePath⟩),
           st.executed ++ (ms.filter (fun m => m.Direction == direction)).map
              Migration.Statements⟩ := by
  intro ms
  induction ms with
  | nil => intro st; simp [execUnits]
  | cons m rest ih =>
    intro st
    by_cases hd : m.Direction = direction
    case pos =>
      have hne : ¬ m.Direction ≠ direction := by simp [hd]
      simp only [execUnits, if_neg hne]
      rw [ih]
      simp [List.filter_cons, hd]
    case neg =>
      simp only [execUnits, if_pos hd]
      rw [ih]
      have : (m.Direction == direction) = false := by
        simp [hd]
      simp [List.filter_cons, this]

theorem appliedIn_append (l1 l2 : List LedgerRow) (v d : String) :
    appliedIn (l1 ++ l2) v d = (appliedIn l1 v d || appliedIn l2 v d) := by
  simp [appliedIn, List.any_append]

theorem appliedIn_iff_mem_pairs (l : List LedgerRow) (v d : String) :
    appliedIn l v d = true ↔ (v, d) ∈ l.map pairOfRow := by
  simp only [appliedIn, List.any_eq_true, List.mem_map]
  constructor
  · rintro ⟨r, hr, hvd⟩
    simp only [Bool.and_eq_true, beq_iff_eq] at hvd
    exact ⟨r, hr, by simp [pairOfRow, hvd.1, hvd.2]⟩
  · rintro ⟨r, hr, hvd⟩
    refine ⟨r, hr, ?_⟩
    simp only [pairOfRow, Prod.mk.injEq] at hvd
    simp [hvd.1, hvd.2]

theorem nodup_count_one (l : List (String × String)) (p : String × String)
    (hnd : l.Nodup) (hmem : p ∈ l) : l.count p = 1 := by
  induction l with
  | nil => cases hmem
  | cons q rest ih =>
    rcases List.mem_cons.mp hmem with rfl | hmem2
    · rw [List.count_cons_self]
      have hq : p ∉ rest := (List.nodup_cons.mp hnd).1
      rw [List.count_eq_zero.mpr hq]
    · have hne : p ≠ q := by
        rintro rfl
        exact (List.nodup_cons.mp hnd).1 hmem2
      rw [List.count_cons_of_ne hne]
      exact ih (List.nodup_cons.mp hnd).2 hmem2

theorem filter_dir_map_pair (d : String) (ms : List Migration) :
    (ms.filter (fun m => m.Direction == d)).map pairOf
      = (ms.map pairOf).filter (fun q => q.2 == d) := by
  induction ms with
  | nil => rfl
  | cons m rest ih =>
    by_cases h : m.Direction = d
    · simp [List.filter_cons, h, pairOf, ih]
    · have h1 : (m.Direction == d) = false := by simp [h]
      have h2 : ((pairOf m).2 == d) = false := by simp [pairOf, h]
      simp [List.filter_cons, h1, h2, ih]

/-- C4: Migrate applies exactly the parsed units whose direction
matches the requested one — in file order for direction up, in reverse
file order for direction down — and units of the other direction are
not executed in that run (the executed log extends only by the
matching units' statements). -/
theorem migrate_direction_order (filePath : String) (lines : List String) (direction : String)
    (st st2 : MigState)
    (hdir : direction = "up" ∨ direction = "down")
    (hrun : Migrate filePath lines direction st = Except.ok st2) :
    (direction = "up" →
      st2.executed = st.executed
        ++ ((parseMigrationFile st.ledger lines).filter
              (fun m => m.Direction == direction)).map Migration.Statements)
    ∧ (direction = "down" →
      st2.executed = st.executed
        ++ (((parseMigrationFile st.ledger lines).filter
              (fun m => m.Direction == direction)).map Migration.Statements).reverse) := by
  have hvalid : ¬(direction ≠ "up" ∧ direction ≠ "down") := by
    rcases hdir with h | h <;> simp [h]
  unfold Migrate at hrun
  rw [if_neg hvalid] at hrun
  injection hrun with h2
  constructor
  · intro hup
    subst hup
    subst h2
    have hdd : (("up" : String) == "down") = false := by decide
    rw [if_neg (by simp [hdd] : ¬ ((("up" : String) == "down") = true))]
    rw [execUnits_spec]
  · intro hdown
    subst hdown
    subst h2
    have hdd : (("down" : String) == "down") = true := by decide
    rw [if_pos hdd]
    rw [execUnits_spec]
    simp only [List.filter_reverse, List.map_reverse]

/-- Witness for C4 at a concrete three-unit file: the up run executes
the two up units in file order and skips the down unit. -/
theorem migrate_direction_order_witness :
    (MigState.mk [⟨"1", "up", "f.sql"⟩, ⟨"3", "up", "f.sql"⟩] ["A;\n", "C;\n"]).executed
      = (MigState.mk [] []).executed
        ++ ((parseMigrationFile (MigState.mk [] []).ledger
              ["-- 1 up", "A;", "-- 2 down", "B;", "-- 3 up", "C;"]).filter
                (fun m => m.Direction == "up")).map Migration.Statements :=
  (migrate_direction_order "f.sql" ["-- 1 up", "A;", "-- 2 down", "B;", "-- 3 up", "C;"] "up"
      (MigState.mk [] []) (MigState.mk [⟨"1", "up", "f.sql"⟩, ⟨"3", "up", "f.sql"⟩] ["A;\n", "C;\n"])
      (Or.inl rfl) (by decide)).1 rfl

/-- C1: units already recorded in the ledger at parse time never
appear in the parse result (their statements are neither collected nor
executed); re-running Migrate right after a run is a complete no-op
(same ledger, same executed log); and under the file invariant that
header pairs are unique and initially unapplied, the ledger ends with
exactly one row for each matching version-direction pair. -/
theorem migrate_idempotent (filePath : String) (lines : List String) (direction : String)
    (st0 st1 : MigState)
    (hdir : direction = "up" ∨ direction = "down")
    (hrun : Migrate filePath lines direction st0 = Except.ok st1)
    (hnodup : (fileHeaders lines).Nodup)
    (hfresh : ∀ p ∈ fileHeaders lines, appliedIn st0.ledger p.1 p.2 = false) :
    (∀ (L : List LedgerRow) (m : Migration), m ∈ parseMigrationFile L lines →
        appliedIn L m.Version m.Direction = false)
    ∧ Migrate filePath lines direction st1 = Except.ok st1
    ∧ ∀ p ∈ fileHeaders lines, p.2 = direction →
        (st1.ledger.map pairOfRow).count p = 1 := by
  have hvalid : ¬(direction ≠ "up" ∧ direction ≠ "down") := by
    rcases hdir with h | h <;> simp [h]
  have hskip : ∀ (L : List LedgerRow) (m : Migration), m ∈ parseMigrationFile L lines →
      appliedIn L m.Version m.Direction = false := by
    intro L m hm
    have hp : pairOf m ∈ (parseMigrationFile L lines).map pairOf :=
      List.mem_map_of_mem pairOf hm
    rw [parseMigrationFile, parseLines_pairs L lines [] false ""] at hp
    simp only [List.map_nil, List.nil_append] at hp
    have hb := (List.mem_filter.mp hp).2
    simpa [pairOf] using hb
  unfold Migrate at hrun
  rw [if_neg hvalid] at hrun
  injection hrun with h2
  have hled : st1.ledger = st0.ledger
      ++ (((if direction == "down" then (parseMigrationFile st0.ledger lines).reverse
            else parseMigrationFile st0.ledger lines)).filter
              (fun m => m.Direction == direction)).map
           (fun m => ⟨m.Version, m.Direction, filePath⟩) := by
    rw [← h2, execUnits_spec]
  have hpairs : (parseMigrationFile st0.ledger lines).map pairOf
      = (fileHeaders lines).filter (fun q => !(appliedIn st0.ledger q.1 q.2)) := by
    rw [parseMigrationFile, parseLines_pairs]
    simp
  have hA : ∀ p ∈ fileHeaders lines, p.2 = direction →
      appliedIn st1.ledger p.1 p.2 = true := by
    intro p hp hpd
    rw [hled, appliedIn_append]
    cases ha : appliedIn st0.ledger p.1 p.2 with
    | true => simp
    | false =>
      have hpmem : p ∈ (parseMigrationFile st0.ledger lines).map pairOf := by
        rw [hpairs]
        exact List.mem_filter.mpr ⟨hp, by simp [ha]⟩
      obtain ⟨m, hm, hmp⟩ := List.mem_map.mp hpmem
      have hm1 : m ∈ (if direction == "down" then (parseMigrationFile st0.ledger lines).reverse
          else parseMigrationFile st0.ledger lines) := by
        cases (direction == "down") <;> simp [hm]
      have hmdir : m.Direction = direction := by
        have := congrArg Prod.snd hmp
        simpa [pairOf, hpd] using this
      have hmf : m ∈ (if direction == "down" then (parseMigrationFile st0.ledger lines).reverse
          else parseMigrationFile st0.ledger lines).filter
            (fun m => m.Direction == direction) :=
        List.mem_filter.mpr ⟨hm1, by simp [hmdir]⟩
      have hin : appliedIn ((((if direction == "down"
            then (parseMigrationFile st0.ledger lines).reverse
            else parseMigrationFile st0.ledger lines)).filter
              (fun m => m.Direction == direction)).map
            (fun m => (⟨m.Version, m.Direction, filePath⟩ : LedgerRow))) p.1 p.2 = true := by
        refine (appliedIn_iff_mem_pairs _ _ _).mpr ?_
        refine List.mem_map.mpr ⟨⟨m.Version, m.Direction, filePath⟩,
          List.mem_map_of_mem _ hmf, ?_⟩
        simpa [pairOfRow] using hmp
      simpa using hin
  have hrun2 : Migrate filePath lines direction st1 = Except.ok st1 := by
    unfold Migrate
    rw [if_neg hvalid]
    have hempty : (parseMigrationFile st1.ledger lines).filter
        (fun m => m.Direction == direction) = [] := by
      rw [List.filter_eq_nil_iff]
      intro m hm hmd
      have hmdir : m.Direction = direction := by simpa using hmd
      have hfalse := hskip st1.ledger m hm
      have hpmem : pairOf m ∈ fileHeaders lines := by
        have hx : pairOf m ∈ (parseMigrationFile st1.ledger lines).map pairOf :=
          List.mem_map_of_mem pairOf hm
        rw [parseMigrationFile, parseLines_pairs] at hx
        simp only [List.map_nil, List.nil_append] at hx
        exact (List.mem_filter.mp hx).1
      have htrue := hA (pairOf m) hpmem (by simp [pairOf, hmdir])
      simp only [pairOf] at htrue
      rw [htrue] at hfalse
      exact absurd hfalse (by simp)
    have hempty2 : ((if direction == "down" then (parseMigrationFile st1.ledger lines).reverse
        else parseMigrationFile st1.ledger lines)).filter
          (fun m => m.Direction == direction) = [] := by
      cases (direction == "down")
      · simpa using hempty
      · simp [hempty]
    rw [execUnits_spec, hempty2]
    cases st1
    simp
  have hcount : ∀ p ∈ fileHeaders lines, p.2 = direction →
      (st1.ledger.map pairOfRow).count p = 1 := by
    intro p hp hpd
    rw [hled, List.map_append, List.count_append]
    have h0 : (st0.ledger.map pairOfRow).count p = 0 := by
      rw [List.count_eq_zero]
      intro hmem
      have hap : appliedIn st0.ledger p.1 p.2 = true :=
        (appliedIn_iff_mem_pairs st0.ledger p.1 p.2).mpr (by simpa using hmem)
      rw [hfresh p hp] at hap
      exact absurd hap (by simp)
    rw [h0]
    have hmapmap : ((((if direction == "down"
          then (parseMigrationFile st0.ledger lines).reverse
          else parseMigrationFile st0.ledger lines)).filter
            (fun m => m.Direction == direction)).map
          (fun m => (⟨m.Version, m.Direction, filePath⟩ : LedgerRow))).map pairOfRow
        = (((if direction == "down" then (parseMigrationFile st0.ledger lines).reverse
            else parseMigrationFile st0.ledger lines)).filter
              (fun m => m.Direction == direction)).map pairOf := by
      rw [List.map_map]
      rfl
    rw [hmapmap, filter_dir_map_pair]
    have hfs : (fileHeaders lines).filter (fun q => !(appliedIn st0.ledger q.1 q.2))
        = fileHeaders lines := by
      rw [List.filter_eq_self]
      intro q hq
      simp [hfresh q hq]
    have hone : ((fileHeaders lines).filter (fun q => q.2 == direction)).count p = 1 := by
      refine nodup_count_one _ p (hnodup.filter _) ?_
      exact List.mem_filter.mpr ⟨hp, by simp [hpd]⟩
    cases (direction == "down")
    · rw [if_neg (by simp : ¬ (false = true))]
      rw [hpairs, hfs, hone]
    · rw [if_pos rfl]
      rw [List.map_reverse, List.filter_reverse, List.count_reverse, hpairs, hfs, hone]
  exact ⟨hskip, hrun2, hcount⟩

/-- Witness for C1 at a concrete two-unit file: after one up run the
second run returns the same state unchanged, the parse against the
updated ledger skips the applied unit, and the ledger holds exactly
one row for the applied pair. -/
theorem migrate_idempotent_witness :
    Migrate "f.sql" ["-- 1 up", "A;", "-- 1 down", "B;"] "up"
        (MigState.mk [⟨"1", "up", "f.sql"⟩] ["A;\n"])
      = Except.ok (MigState.mk [⟨"1", "up", "f.sql"⟩] ["A;\n"])
    ∧ ((MigState.mk [⟨"1", "up", "f.sql"⟩] ["A;\n"]).ledger.map pairOfRow).count ("1", "up") = 1 :=
  ⟨(migrate_idempotent "f.sql" ["-- 1 up", "A;", "-- 1 down", "B;"] "up"
      (MigState.mk [] []) (MigState.mk [⟨"1", "up", "f.sql"⟩] ["A;\n"])
      (Or.inl rfl) (by decide) (by decide) (by decide)).2.1,
   (migrate_idempotent "f.sql" ["-- 1 up", "A;", "-- 1 down", "B;"] "up"
      (MigState.mk [] []) (MigState.mk [⟨"1", "up", "f.sql"⟩] ["A;\n"])
      (Or.inl rfl) (by decide) (by decide) (by decide)).2.2 ("1", "up") (by decide) rfl⟩

/-! ### Round trip of the name conversion (claim C6) -/

/-- The ASCII capitals. -/
def asciiUppers : List Char :=
  ['A', 'B', 'C', 'D', 'E', 'F', 'G', 'H', 'I', 'J', 'K', 'L', 'M',
   'N', 'O', 'P', 'Q', 'R', 'S', 'T', 'U', 'V', 'W', 'X', 'Y', 'Z']

/-- Characters allowed after the capital of a PascalCase word:
lowercase ASCII letters and digits. -/
def asciiWordTail : List Char :=
  ['a', 'b', 'c', 'd', 'e', 'f', 'g', 'h', 'i', 'j', 'k', 'l', 'm',
   'n', 'o', 'p', 'q', 'r', 's', 't', 'u', 'v', 'w', 'x', 'y', 'z',
   '0', '1', '2', '3', '4', '5', '6', '7', '8', '9']

/-- A PascalCase word, given as its capital and the following
characters. -/
def PascalWord (w : Char × List Char) : Prop :=
  w.1 ∈ asciiUppers ∧ ∀ c ∈ w.2, c ∈ asciiWordTail

/-- The characters of one word. -/
def wordChars (w : Char × List Char) : List Char := w.1 :: w.2

/-- A PascalCase identifier, as the concatenation of its words. -/
def pascalChars (ws : List (Char × List Char)) : List Char :=
  (ws.map wordChars).flatten

/-- The snake-case form of one word. -/
def lowerWord (w : Char × List Char) : List Char := w.1.toLower :: w.2

/-- The word's snake-case form is not a recognized initialism. -/
def notInitialism (w : Char × List Char) : Prop :=
  (isCommonInitialism (String.mk (lowerWord w))).2 = false

instance (w : Char × List Char) : Decidable (PascalWord w) :=
  inferInstanceAs (Decidable (w.1 ∈ asciiUppers ∧ ∀ c ∈ w.2, c ∈ asciiWordTail))

instance (w : Char × List Char) : Decidable (notInitialism w) :=
  inferInstanceAs (Decidable ((isCommonInitialism (String.mk (lowerWord w))).2 = false))

theorem asciiUppers_facts : ∀ c ∈ asciiUppers,
    c.isUpper = true ∧ c.toLower.toUpper = c ∧ c.toLower.isUpper = false
      ∧ c.toLower ≠ '_' := by decide

theorem asciiWordTail_facts : ∀ c ∈ asciiWordTail,
    c.isUpper = false ∧ c ≠ '_' ∧ c.toLower = c := by decide

theorem lowerLetters_flat (cs : List Char) :
    ∀ rest : List Char, (∀ c ∈ cs, c.isUpper = false) →
      lowerLetters (cs ++ rest) false false = cs ++ lowerLetters rest false false := by
  induction cs with
  | nil => intro rest _; simp
  | cons c cs ih =>
    intro rest h
    have hc := h c (List.mem_cons_self c cs)
    simp only [List.cons_append, lowerLetters, hc]
    simp only [Bool.false_and, Bool.and_false, if_neg (by simp : ¬ (false = true))]
    simp only [List.append_eq]
    rw [ih rest (fun d hd => h d (List.mem_cons_of_mem c hd))]

theorem lowerLetters_start (c : Char) (rest : List Char) :
    lowerLetters (c :: rest) true true = c.toLower :: lowerLetters rest false false := by
  simp [lowerLetters]

theorem lowerLetters_upper (u : Char) (rest : List Char) (hu : u.isUpper = true) :
    lowerLetters (u :: rest) false false = '_' :: u.toLower :: lowerLetters rest true true := by
  simp [lowerLetters, hu]

theorem lowerLetters_tailwords :
    ∀ ws : List (Char × List Char),
      (∀ w ∈ ws, w.1.isUpper = true
        ∧ (∀ c ∈ w.2, c.isUpper = false ∧ c.toLower = c) ∧ w.2 ≠ []) →
      lowerLetters ((ws.map wordChars).flatten) false false
        = (ws.map (fun w => '_' :: lowerWord w)).flatten := by
  intro ws
  induction ws with
  | nil => intro _; rfl
  | cons w ws ih =>
    intro h
    obtain ⟨hu, htl, hne⟩ := h w (List.mem_cons_self w ws)
    obtain ⟨u, cs⟩ := w
    cases cs with
    | nil => exact absurd rfl hne
    | cons c cs =>
      have hc := htl c (List.mem_cons_self c cs)
      show lowerLetters (u :: (c :: (cs ++ (ws.map wordChars).flatten))) false false = _
      rw [lowerLetters_upper u _ hu, lowerLetters_start c _]
      rw [hc.2]
      have hcs : ∀ d ∈ cs, d.isUpper = false := by
        intro d hd
        exact (htl d (List.mem_cons_of_mem c hd)).1
      rw [lowerLetters_flat cs _ hcs]
      rw [ih (fun x hx => h x (List.mem_cons_of_mem (u, c :: cs) hx))]
      simp [lowerWord]

theorem camel_on_pascal (w0 : Char × List Char) (ws : List (Char × List Char))
    (h0tail : ∀ c ∈ w0.2, c.isUpper = false)
    (hws : ∀ w ∈ ws, w.1.isUpper = true
      ∧ (∀ c ∈ w.2, c.isUpper = false ∧ c.toLower = c) ∧ w.2 ≠ []) :
    lowerLetters (pascalChars (w0 :: ws)) true true
      = lowerWord w0 ++ (ws.map (fun w => '_' :: lowerWord w)).flatten := by
  obtain ⟨u, cs⟩ := w0
  simp only [pascalChars, List.map_cons, List.flatten_cons, wordChars, List.cons_append]
  rw [lowerLetters_start]
  rw [lowerLetters_flat cs _ h0tail]
  rw [lowerLetters_tailwords ws hws]
  simp [lowerWord]

theorem splitUnderscore_append (a : List Char) :
    ∀ (rest : List Char) (h : List Char) (t : List (List Char)),
      (∀ c ∈ a, c ≠ '_') → splitUnderscore rest = h :: t →
      splitUnderscore (a ++ rest) = (a ++ h) :: t := by
  induction a with
  | nil => intro rest h t _ hrest; simpa using hrest
  | cons c a ih =>
    intro rest h t hne hrest
    have hc : c ≠ '_' := hne c (List.mem_cons_self c a)
    simp only [List.cons_append, splitUnderscore, if_neg hc]
    simp only [List.append_eq]
    rw [ih rest h t (fun d hd => hne d (List.mem_cons_of_mem c hd)) hrest]

theorem splitUnderscore_underscore (Y : List Char) :
    splitUnderscore ('_' :: Y) = [] :: splitUnderscore Y := by
  simp [splitUnderscore]

theorem splitUnderscore_words :
    ∀ (ws : List (Char × List Char)) (w : List Char),
      (∀ c ∈ w, c ≠ '_') → (∀ x ∈ ws, ∀ c ∈ lowerWord x, c ≠ '_') →
      splitUnderscore (w ++ (ws.map (fun x => '_' :: lowerWord x)).flatten)
        = w :: ws.map lowerWord := by
  intro ws
  induction ws with
  | nil =>
    intro w hw _
    have := splitUnderscore_append w [] [] [] hw rfl
    simpa using this
  | cons x ws ih =>
    intro w hw hxs
    simp only [List.map_cons, List.flatten_cons, List.cons_append]
    have hrest : splitUnderscore ('_' :: (lowerWord x ++ (ws.map (fun y => '_' :: lowerWord y)).flatten))
        = [] :: (lowerWord x :: ws.map lowerWord) := by
      rw [splitUnderscore_underscore]
      rw [ih (lowerWord x) (hxs x (List.mem_cons_self x ws))
        (fun y hy => hxs y (List.mem_cons_of_mem x hy))]
    have := splitUnderscore_append w
      ('_' :: (lowerWord x ++ (ws.map (fun y => '_' :: lowerWord y)).flatten))
      [] (lowerWord x :: ws.map lowerWord) hw hrest
    simpa using this

theorem snakeWord_recover (u : Char) (cs : List Char)
    (hu : u ∈ asciiUppers) (hcs : ∀ c ∈ cs, c ∈ asciiWordTail)
    (hinit : (isCommonInitialism (String.mk (u.toLower :: cs))).2 = false) :
    snakeWordToCamel (String.mk (u.toLower :: cs)) = String.mk (u :: cs) := by
  simp only [snakeWordToCamel, hinit, if_neg (by simp : ¬ (false = true))]
  have hup : u.toLower.toUpper = u := (asciiUppers_facts u hu).2.1
  have hmap : cs.map Char.toLower = cs := by
    have : ∀ c ∈ cs, Char.toLower c = c := fun c hc => (asciiWordTail_facts c (hcs c hc)).2.2
    calc cs.map Char.toLower = cs.map id := List.map_congr_left this
    _ = cs := List.map_id cs
  show String.mk (u.toLower.toUpper :: cs.map Char.toLower) = String.mk (u :: cs)
  rw [hup, hmap]

/-- C6 amended: the snake-then-back round trip is the identity on
PascalCase identifiers of length other than two (the words being an
ASCII capital followed by lowercase letters or digits, every word
after the first nonempty past its capital) none of whose words
lowercases to a recognized initialism. -/
theorem name_roundtrip_amended (w0 : Char × List Char) (ws : List (Char × List Char))
    (h0 : PascalWord w0) (hws : ∀ w ∈ ws, PascalWord w)
    (htail : ∀ w ∈ ws, w.2 ≠ [])
    (hinit0 : notInitialism w0) (hinits : ∀ w ∈ ws, notInitialism w)
    (hlen : (pascalChars (w0 :: ws)).length ≠ 2) :
    SnakeToCamel (CamelToSnake (String.mk (pascalChars (w0 :: ws))))
      = String.mk (pascalChars (w0 :: ws)) := by
  have hwsfacts : ∀ w ∈ ws, w.1.isUpper = true
      ∧ (∀ c ∈ w.2, c.isUpper = false ∧ c.toLower = c) ∧ w.2 ≠ [] := by
    intro w hw
    obtain ⟨hu, htl⟩ := hws w hw
    exact ⟨(asciiUppers_facts _ hu).1,
      fun c hc => ⟨(asciiWordTail_facts c (htl c hc)).1, (asciiWordTail_facts c (htl c hc)).2.2⟩,
      htail w hw⟩
  have h0tail : ∀ c ∈ w0.2, c.isUpper = false :=
    fun c hc => (asciiWordTail_facts c (h0.2 c hc)).1
  -- the snake-case character list
  have hsnake : CamelToSnake (String.mk (pascalChars (w0 :: ws)))
      = String.mk (lowerWord w0 ++ (ws.map (fun w => '_' :: lowerWord w)).flatten) := by
    unfold CamelToSnake
    rw [if_neg (by simpa using hlen)]
    congr 1
    exact camel_on_pascal w0 ws h0tail hwsfacts
  rw [hsnake]
  -- underscore freedom of the snake words
  have hw0free : ∀ c ∈ lowerWord w0, c ≠ '_' := by
    intro c hc
    rcases List.mem_cons.mp hc with rfl | hc2
    · exact (asciiUppers_facts _ h0.1).2.2.2
    · exact (asciiWordTail_facts c (h0.2 c hc2)).2.1
  have hwsfree : ∀ x ∈ ws, ∀ c ∈ lowerWord x, c ≠ '_' := by
    intro x hx c hc
    rcases List.mem_cons.mp hc with rfl | hc2
    · exact (asciiUppers_facts _ (hws x hx).1).2.2.2
    · exact (asciiWordTail_facts c ((hws x hx).2 c hc2)).2.1
  -- length of the snake form is not 2 either
  have hslen : (lowerWord w0 ++ (ws.map (fun w => '_' :: lowerWord w)).flatten).length ≠ 2 := by
    cases ws with
    | nil =>
      intro hcontra
      apply hlen
      simp only [pascalChars, List.map_cons, List.map_nil, List.flatten_cons,
        List.flatten_nil, wordChars, List.append_nil] at *
      simp only [lowerWord, List.append_nil] at hcontra
      simpa using hcontra
    | cons w1 ws1 =>
      have h1 : w1.2 ≠ [] := htail w1 (List.mem_cons_self w1 ws1)
      have h1len : 1 ≤ w1.2.length := by
        cases hw2 : w1.2 with
        | nil => exact absurd hw2 h1
        | cons a b => simp
      simp only [List.map_cons, List.flatten_cons, lowerWord]
      simp only [List.length_append, List.length_cons]
      omega
  unfold SnakeToCamel
  rw [if_neg (by simpa using hslen)]
  have hsplit : splitUnderscore
      (String.mk (lowerWord w0 ++ (ws.map (fun w => '_' :: lowerWord w)).flatten)).toList
      = lowerWord w0 :: ws.map lowerWord := by
    have htl : (String.mk (lowerWord w0 ++ (ws.map (fun w => '_' :: lowerWord w)).flatten)).toList
        = lowerWord w0 ++ (ws.map (fun w => '_' :: lowerWord w)).flatten := rfl
    rw [htl]
    exact splitUnderscore_words ws (lowerWord w0) hw0free hwsfree
  rw [hsplit]
  -- recover each word
  have hrecword : ∀ x, PascalWord x → notInitialism x →
      (snakeWordToCamel (String.mk (lowerWord x))).toList = wordChars x := by
    intro x hx hi
    obtain ⟨u, cs⟩ := x
    have hr := snakeWord_recover u cs hx.1 hx.2 hi
    rw [show lowerWord (u, cs) = u.toLower :: cs from rfl, hr]
    rfl
  have hrec : (lowerWord w0 :: ws.map lowerWord).map
      (fun piece => (snakeWordToCamel (String.mk piece)).toList)
      = (w0 :: ws).map wordChars := by
    simp only [List.map_cons, List.map_map]
    rw [hrecword w0 h0 hinit0]
    congr 1
    apply List.map_congr_left
    intro x hx
    exact hrecword x (hws x hx) (hinits x hx)
  rw [hrec]
  rfl

/-- C6 counterexample: the two-letter PascalCase identifier Ab (no
recognized initialism substring) does not round-trip — the two-rune
special cases send Ab to ab and ab back to AB. -/
theorem name_roundtrip_counterexample :
    PascalWord ('A', ['b']) ∧ notInitialism ('A', ['b'])
    ∧ SnakeToCamel (CamelToSnake "Ab") ≠ "Ab"
    ∧ CamelToSnake "Ab" = "ab" ∧ SnakeToCamel "ab" = "AB" := by
  refine ⟨by decide, by decide, by decide, by decide, by decide⟩

/-- Witness for the amended C6 at the specification's own example
identifier. -/
theorem name_roundtrip_amended_witness :
    SnakeToCamel (CamelToSnake "AVeryLongAndComplexTableName")
      = "AVeryLongAndComplexTableName" := by
  have h := name_roundtrip_amended ('A', [])
    [('V', ['e', 'r', 'y']), ('L', ['o', 'n', 'g']), ('A', ['n', 'd']),
     ('C', ['o', 'm', 'p', 'l', 'e', 'x']), ('T', ['a', 'b', 'l', 'e']),
     ('N', ['a', 'm', 'e'])]
    (by decide) (by decide) (by decide) (by decide) (by decide) (by decide)
  have he : String.mk (pascalChars (('A', ([] : List Char)) ::
      [('V', ['e', 'r', 'y']), ('L', ['o', 'n', 'g']), ('A', ['n', 'd']),
       ('C', ['o', 'm', 'p', 'l', 'e', 'x']), ('T', ['a', 'b', 'l', 'e']),
       ('N', ['a', 'm', 'e'])])) = "AVeryLongAndComplexTableName" := by decide
  rw [he] at h
  exact h

end Rowx
